import Mathlib

/-!
Unique-code issuance (main.go)

A shallow embedding of the code-issuance core of `main.go`:
`randCode`, `insertCode`, `generateUnique` and the two blocks of `main`
(the `-add-used` block and the batch loop).

Conventions of the embedding.

* A Go `string` is its sequence of bytes (`len` is the byte length and
  `s[i]` is a byte), so a code is a list of byte values.
* Everything the program obtains from outside is read from an `Env`:
  the values produced by `cryptoRand.Int`, the storage failures of the
  SQLite handle, the clock and the failures of the QR renderer.  Each is a
  stream indexed by the number of requests made so far, which the `World`
  counts.
* The table `codes(code TEXT PRIMARY KEY, created_at INTEGER NOT NULL)`
  created by `mustDB` is the list of its rows, in insertion order.
* `generateUnique` is an unbounded `for` loop; its embedding takes a fuel
  argument bounding the number of iterations and answers `diverge` when
  the fuel is exhausted.
-/

namespace VomarQR

/-! ## Data model -/

/-- A Go string: the sequence of its bytes. -/
abbrev GoString := List Nat

/-- The bytes of an ASCII literal, for writing concrete inputs. -/
def ascii (s : String) : GoString := s.toList.map Char.toNat

/-- The constant `defaultLen`. -/
def defaultLen : Int := 10

/-- The constant `defaultAlphabet`. -/
def defaultAlphabet : GoString := ascii "ABCDEFGHIJKLMNOPQRSTUVWXYZ0123456789"

/-- The kinds of `error` value the program can observe. -/
inductive Error where
  /-- The reader behind `cryptoRand.Int` failed. -/
  | entropy
  /-- The INSERT violated the PRIMARY KEY constraint on `code`. -/
  | constraint
  /-- The INSERT failed for another reason (I/O error, disk full, ...). -/
  | storage
  /-- The QR renderer or the file system failed in `writeQRPNG`. -/
  | render
  deriving DecidableEq, Repr

/-- A line printed on standard output. -/
inductive Line where
  /-- The line "Recorded used code: <code>". -/
  | recordedUsed (code : GoString)
  /-- The line "Code already recorded: <code>". -/
  | alreadyRecorded (code : GoString)
  /-- The lines "Generated code: <code>" / "Saved: <path>" and the preview. -/
  | generated (code : GoString)
  deriving DecidableEq, Repr

/-- What the program receives from outside, as streams of answers. -/
structure Env where
  /-- What the reader delivers at the k-th call of `cryptoRand.Int`, for a
  call that consults it: `none` when the reader fails, `some raw` when it
  delivers; the value returned is then `raw % max`. -/
  rand : Nat → Option Nat
  /-- Whether the k-th INSERT statement fails for a reason other than the
  PRIMARY KEY constraint. -/
  fault : Nat → Bool
  /-- Value of `time.Now().Unix()` at the k-th INSERT statement. -/
  clock : Nat → Int
  /-- Whether the k-th call of `writeQRPNG` fails. -/
  renderFails : Nat → Bool

/-- The state the program acts on. -/
structure World where
  /-- Rows of the table `codes`, as `(code, created_at)`, oldest first. -/
  rows : List (GoString × Int)
  /-- Number of calls of `randCode` made so far. -/
  draws : Nat
  /-- Number of calls of `cryptoRand.Int` made so far. -/
  randPos : Nat
  /-- Number of INSERT statements executed so far. -/
  execs : Nat
  /-- Number of calls of `writeQRPNG` made so far. -/
  renders : Nat
  /-- Lines printed so far. -/
  out : List Line
  deriving DecidableEq, Repr

/-- The codes present in the ledger. -/
def World.codes (w : World) : List GoString := w.rows.map Prod.fst

/-- How a call ends. -/
inductive Outcome (α : Type) where
  /-- Normal return with a nil error. -/
  | ok (v : α) (w : World)
  /-- Normal return with a non-nil error. -/
  | error (e : Error) (w : World)
  /-- A run-time panic. -/
  | panic (w : World)
  /-- The process was ended by `log.Fatal`. -/
  | fatal (e : Error) (w : World)
  /-- The loop did not finish within the fuel given. -/
  | diverge
  deriving DecidableEq, Repr

/-! ## randCode -/

/-- The call `cryptoRand.Int(cryptoRand.Reader, max)` with a positive
bound, as the `pos`-th call: with bound 1 the only value is 0 and the
reader is not consulted; otherwise the call fails when the reader fails
(`none`) and returns a value below the bound when it delivers. -/
def randInt (env : Env) (pos max : Nat) : Option Nat :=
  if max = 1 then some 0 else (env.rand pos).map (fun raw => raw % max)

/-- The loop of `randCode`: `k` iterations remain and `b` is the content of
the builder.  `cryptoRand.Int` panics when its bound is not positive and
otherwise answers as `randInt`; `alphabet[r]` panics when `r` is out of
range. -/
def randCodeLoop (env : Env) (alphabet : GoString) : Nat → GoString → World → Outcome GoString
  | 0, b, w => .ok b w
  | k + 1, b, w =>
    if alphabet.length = 0 then .panic w
    else
      match randInt env w.randPos alphabet.length with
      | none => .error .entropy { w with randPos := w.randPos + 1 }
      | some r =>
        match alphabet.get? r with
        | none => .panic { w with randPos := w.randPos + 1 }
        | some c => randCodeLoop env alphabet k (b ++ [c]) { w with randPos := w.randPos + 1 }

/-- The function `randCode(n, alphabet)`: the loop runs for `i = 0, ..., n - 1`,
that is `n.toNat` times. -/
def randCode (env : Env) (n : Int) (alphabet : GoString) (w : World) : Outcome GoString :=
  randCodeLoop env alphabet n.toNat [] { w with draws := w.draws + 1 }

/-! ## insertCode -/

/-- The function `insertCode(db, code)`: one INSERT of `(code, now)`.  It
returns the error of the statement (`none` for nil).  A statement that
fails changes no row; the PRIMARY KEY constraint rejects a code that is
already present. -/
def insertCode (env : Env) (w : World) (code : GoString) : Option Error × World :=
  let now := env.clock w.execs
  if env.fault w.execs then
    (some .storage, { w with execs := w.execs + 1 })
  else if code ∈ w.codes then
    (some .constraint, { w with execs := w.execs + 1 })
  else
    (none, { w with execs := w.execs + 1, rows := w.rows ++ [(code, now)] })

/-! ## generateUnique -/

/-- The function `generateUnique(db, n, alphabet)`, with `fuel` bounding
the number of iterations of its `for` loop. -/
def generateUnique (env : Env) (n : Int) (alphabet : GoString) : Nat → World → Outcome GoString
  | 0, _ => .diverge
  | fuel + 1, w =>
    match randCode env n alphabet w with
    | .ok code w1 =>
      match insertCode env w1 code with
      | (none, w2) => .ok code w2
      | (some _, w2) => generateUnique env n alphabet fuel w2
    | .error e w1 => .error e w1
    | .panic w1 => .panic w1
    | .fatal e w1 => .fatal e w1
    | .diverge => .diverge

/-! ## The two blocks of main -/

/-- The part of the standard library that depends on the Unicode tables:
what `strings.ToUpper` and `strings.TrimSpace` do once they have met a
byte outside ASCII. -/
structure Unicode where
  /-- The call `strings.Map(unicode.ToUpper, s)`. -/
  mapToUpper : GoString → GoString
  /-- The call `strings.TrimFunc(s, unicode.IsSpace)`. -/
  trimFunc : GoString → GoString
  /-- The call `strings.TrimRightFunc(s, unicode.IsSpace)`. -/
  trimRightFunc : GoString → GoString

/-- The ASCII white space of `strings.TrimSpace`: tab, line feed, vertical
tab, form feed, carriage return and space. -/
def isAsciiSpace (c : Nat) : Bool :=
  c == 9 || c == 10 || c == 11 || c == 12 || c == 13 || c == 32

/-- The upper-case form of one ASCII byte. -/
def upperByte (c : Nat) : Nat :=
  if 97 ≤ c ∧ c ≤ 122 then c - 32 else c

/-- The function `strings.ToUpper`: a string of ASCII bytes is mapped byte
by byte, any other string goes through the Unicode tables. -/
def ToUpper (u : Unicode) (s : GoString) : GoString :=
  if s.all (fun c => decide (c < 128)) then s.map upperByte else u.mapToUpper s

/-- Second loop of `strings.TrimSpace`, on the reversed string: drop the
trailing ASCII white space, and hand over to the Unicode tables at a byte
outside ASCII. -/
def trimSpaceEnd (u : Unicode) : GoString → GoString
  | [] => []
  | c :: r =>
    if 128 ≤ c then u.trimRightFunc (c :: r).reverse
    else if isAsciiSpace c then trimSpaceEnd u r
    else (c :: r).reverse

/-- The function `strings.TrimSpace`: drop the leading ASCII white space,
then the trailing one, and hand over to the Unicode tables at a byte
outside ASCII. -/
def TrimSpace (u : Unicode) : GoString → GoString
  | [] => []
  | c :: s =>
    if 128 ≤ c then u.trimFunc (c :: s)
    else if isAsciiSpace c then TrimSpace u s
    else trimSpaceEnd u (c :: s).reverse

/-- The normal form of a manually supplied code:
`strings.ToUpper(strings.TrimSpace(raw))`. -/
def normalize (u : Unicode) (raw : GoString) : GoString :=
  ToUpper u (TrimSpace u raw)

/-- The body of the `-add-used` block of `main`: normalize the code, try to
insert it, and print one of two lines. -/
def recordUsed (u : Unicode) (env : Env) (raw : GoString) (w : World) : World :=
  let code := ToUpper u (TrimSpace u raw)
  match insertCode env w code with
  | (none, w1) => { w1 with out := w1.out ++ [.recordedUsed code] }
  | (some _, w1) => { w1 with out := w1.out ++ [.alreadyRecorded code] }

/-- The function `writeQRPNG`, seen from the ledger: it succeeds or fails
and touches no row. -/
def writeQRPNG (env : Env) (w : World) : Option Error × World :=
  if env.renderFails w.renders then (some .render, { w with renders := w.renders + 1 })
  else (none, { w with renders := w.renders + 1 })

/-- The batch loop of `main` with `k` iterations remaining.  It answers the
codes returned by the calls of `generateUnique`, in order; an error of
`generateUnique` or of `writeQRPNG` ends the process through `log.Fatal`. -/
def batchLoop (env : Env) (length : Int) (alphabet : GoString) (fuel : Nat) :
    Nat → World → Outcome (List GoString)
  | 0, w => .ok [] w
  | k + 1, w =>
    match generateUnique env length alphabet fuel w with
    | .ok code w1 =>
      match writeQRPNG env w1 with
      | (some e, w2) => .fatal e w2
      | (none, w2) =>
        match batchLoop env length alphabet fuel k { w2 with out := w2.out ++ [.generated code] } with
        | .ok codes w3 => .ok (code :: codes) w3
        | other => other
    | .error e w1 => .fatal e w1
    | .panic w1 => .panic w1
    | .fatal e w1 => .fatal e w1
    | .diverge => .diverge

/-- The command-line flags that reach the core. -/
structure Flags where
  /-- The flag `-batch`. -/
  batch : Int
  /-- The flag `-len`. -/
  length : Int
  /-- The flag `-alphabet`, whose help text is "characters to use". -/
  alphabet : GoString
  /-- The flag `-add-used`. -/
  addUsed : GoString

/-- The function `main` after `mustDB`: the `-add-used` block when the flag
is not empty, then the batch loop for `i = 0, ..., batch - 1`. -/
def main (u : Unicode) (env : Env) (flags : Flags) (fuel : Nat) (w : World) :
    Outcome (List GoString) :=
  let w1 := if flags.addUsed ≠ [] then recordUsed u env flags.addUsed w else w
  batchLoop env flags.length flags.alphabet fuel flags.batch.toNat w1

/-! ## Vocabulary of the statements -/

/-- The world after `j` iterations of `generateUnique` that each drew a
code of `m` bytes and failed to insert it. -/
def World.retried (w : World) (j m : Nat) : World :=
  { w with draws := w.draws + j, randPos := w.randPos + j * m, execs := w.execs + j }

/-- The `j`-th candidate of the draw sequence seen from `w` (counting from
0): what `randCode` returns on the answers that follow the first `j`
draws, if it returns a code. -/
def candidate (env : Env) (n : Int) (alphabet : GoString) (w : World) (j : Nat) :
    Option GoString :=
  match randCode env n alphabet (w.retried j n.toNat) with
  | .ok c _ => some c
  | _ => none

/-- The call of `generateUnique` returns a code: some amount of fuel is
enough for it to end with a nil error. -/
def Returns (env : Env) (n : Int) (alphabet : GoString) (w : World) : Prop :=
  ∃ fuel code w1, generateUnique env n alphabet fuel w = .ok code w1

/-- The UTF-8 encoding of one character, given by its code point: the
bytes that stand for the character in a Go string such as a flag value. -/
def utf8EncodeChar (c : Nat) : GoString :=
  if c < 128 then [c]
  else if c < 2048 then [192 + c / 64, 128 + c % 64]
  else if c < 65536 then [224 + c / 4096, 128 + c / 64 % 64, 128 + c % 64]
  else [240 + c / 262144, 128 + c / 4096 % 64, 128 + c / 64 % 64, 128 + c % 64]

/-- The Go string made of the given characters. -/
def utf8Encode : List Nat → GoString
  | [] => []
  | c :: cs => utf8EncodeChar c ++ utf8Encode cs

/-! ## Concrete inputs -/

/-- No Unicode handling: enough for ASCII inputs, which never reach it. -/
def asciiOnly : Unicode :=
  { mapToUpper := id, trimFunc := id, trimRightFunc := id }

/-- A well-behaved environment: the k-th random answer is `k`, no storage
failure, the clock reads `1000 + k`, the renderer works. -/
def envFair : Env :=
  { rand := fun k => some k, fault := fun _ => false,
    clock := fun k => 1000 + (k : Int), renderFails := fun _ => false }

/-- An environment as `envFair` whose first INSERT fails with a storage
failure that is not a constraint violation. -/
def envFaultFirst : Env :=
  { rand := fun k => some k, fault := fun k => decide (k = 0),
    clock := fun k => 1000 + (k : Int), renderFails := fun _ => false }

/-- An environment as `envFair` whose storage fails at every INSERT. -/
def envFaultAlways : Env :=
  { rand := fun k => some k, fault := fun _ => true,
    clock := fun k => 1000 + (k : Int), renderFails := fun _ => false }

/-- An environment as `envFair` whose k-th random answer is `k + 1`: with
a bound of 2 the values drawn are 1, 0, 1, 0, ... -/
def envOneZero : Env :=
  { rand := fun k => some (k + 1), fault := fun _ => false,
    clock := fun k => 1000 + (k : Int), renderFails := fun _ => false }

/-- An environment whose random answers are all 0. -/
def envZero : Env :=
  { rand := fun _ => some 0, fault := fun _ => false,
    clock := fun k => 1000 + (k : Int), renderFails := fun _ => false }

/-- A world with the given rows and all counters at 0. -/
def worldOf (rows : List (GoString × Int)) : World :=
  { rows := rows, draws := 0, randPos := 0, execs := 0, renders := 0, out := [] }

/-! ## randCode: shape of the result -/

/-- A value returned by `cryptoRand.Int` is below its bound. -/
theorem randInt_lt (env : Env) (pos max r : Nat) (hmax : 0 < max)
    (h : randInt env pos max = some r) : r < max := by
  unfold randInt at h
  split at h
  · simp only [Option.some.injEq] at h
    omega
  · obtain ⟨raw, _, hr⟩ := Option.map_eq_some'.mp h
    rw [← hr]
    exact Nat.mod_lt _ hmax

/-- A call of `cryptoRand.Int` succeeds when the reader delivers. -/
theorem randInt_isSome (env : Env) (pos max : Nat)
    (h : (env.rand pos).isSome = true) : ∃ r, randInt env pos max = some r := by
  obtain ⟨raw, hraw⟩ := Option.isSome_iff_exists.mp h
  unfold randInt
  split
  · exact ⟨0, rfl⟩
  · exact ⟨raw % max, by simp [hraw]⟩

/-- A loop of `randCode` that returns normally has made `k` reads, has
touched nothing else, and has appended `k` bytes of the alphabet. -/
theorem randCodeLoop_ok_inv (env : Env) (a : GoString) :
    ∀ (k : Nat) (b : GoString) (w : World) (c : GoString) (w1 : World),
      randCodeLoop env a k b w = .ok c w1 →
      w1 = { w with randPos := w.randPos + k } ∧
        ∃ s : GoString, c = b ++ s ∧ s.length = k ∧ ∀ x ∈ s, x ∈ a := by
  intro k
  induction k with
  | zero =>
    intro b w c w1 h
    simp only [randCodeLoop, Outcome.ok.injEq] at h
    obtain ⟨hc, hw⟩ := h
    subst hc hw
    exact ⟨rfl, [], by simp, rfl, by simp⟩
  | succ k ih =>
    intro b w c w1 h
    simp only [randCodeLoop] at h
    split at h
    · exact absurd h (by simp)
    · split at h
      · exact absurd h (by simp)
      · rename_i raw hraw
        split at h
        · exact absurd h (by simp)
        · rename_i x hx
          obtain ⟨hw, s, hc, hlen, hmem⟩ := ih _ _ _ _ h
          refine ⟨?_, x :: s, ?_, ?_, ?_⟩
          · rw [hw]
            simp only [World.mk.injEq, true_and, and_true]
            omega
          · rw [hc]; simp
          · simp [hlen]
          · intro y hy
            rcases List.mem_cons.mp hy with rfl | hy
            · exact List.get?_mem hx
            · exact hmem y hy

/-- The code a loop of `randCode` returns depends on the world only through
the position in the random stream. -/
theorem randCodeLoop_frame (env : Env) (a : GoString) :
    ∀ (k : Nat) (b : GoString) (w : World) (c : GoString) (w1 : World),
      randCodeLoop env a k b w = .ok c w1 →
      ∀ w2 : World, w2.randPos = w.randPos →
        randCodeLoop env a k b w2 = .ok c { w2 with randPos := w2.randPos + k } := by
  intro k
  induction k with
  | zero =>
    intro b w c w1 h w2 _
    simp only [randCodeLoop, Outcome.ok.injEq] at h
    simp [randCodeLoop, h.1]
  | succ k ih =>
    intro b w c w1 h w2 hpos
    simp only [randCodeLoop] at h ⊢
    rw [hpos]
    split at h
    · exact absurd h (by simp)
    · rename_i hlen
      rw [if_neg hlen]
      split at h
      · exact absurd h (by simp)
      · split at h
        · exact absurd h (by simp)
        · have h2 := ih _ _ _ _ h { w2 with randPos := w2.randPos + 1 } (by simp [hpos])
          rw [hpos] at h2
          simp only [h2, Outcome.ok.injEq, World.mk.injEq, true_and, and_true]
          omega

/-- With a non-empty alphabet, a loop of `randCode` whose `k` reads all
succeed returns a code. -/
theorem randCodeLoop_total (env : Env) (a : GoString) (ha : a ≠ []) :
    ∀ (k : Nat) (b : GoString) (w : World),
      (∀ i, w.randPos ≤ i → i < w.randPos + k → (env.rand i).isSome = true) →
      ∃ c, randCodeLoop env a k b w = .ok c { w with randPos := w.randPos + k } := by
  intro k
  induction k with
  | zero => intro b w _; exact ⟨b, by simp [randCodeLoop]⟩
  | succ k ih =>
    intro b w hr
    have hlen : a.length ≠ 0 := by simpa using ha
    obtain ⟨r, hraw⟩ := randInt_isSome env w.randPos a.length
      (hr w.randPos (le_refl _) (by omega))
    have hlt : r < a.length := randInt_lt env _ _ r (Nat.pos_of_ne_zero hlen) hraw
    obtain ⟨c, hc⟩ := ih (b ++ [a.get ⟨r, hlt⟩])
      { w with randPos := w.randPos + 1 }
      (fun i h1 h2 => hr i (by simp only at h1; omega) (by simp only at h2; omega))
    refine ⟨c, ?_⟩
    simp only [randCodeLoop, if_neg hlen, hraw, List.get?_eq_get hlt, hc, Outcome.ok.injEq,
      World.mk.injEq, true_and, and_true]
    omega

/-- With a non-empty alphabet a loop of `randCode` does not panic. -/
theorem randCodeLoop_no_panic (env : Env) (a : GoString) (ha : a ≠ []) :
    ∀ (k : Nat) (b : GoString) (w w1 : World), randCodeLoop env a k b w ≠ .panic w1 := by
  intro k
  induction k with
  | zero => intro b w w1; simp [randCodeLoop]
  | succ k ih =>
    intro b w w1
    have hlen : a.length ≠ 0 := by simpa using ha
    simp only [randCodeLoop, if_neg hlen]
    split
    · simp
    · rename_i r hraw
      have hlt : r < a.length := randInt_lt env _ _ r (Nat.pos_of_ne_zero hlen) hraw
      simp only [List.get?_eq_get hlt]
      exact ih _ _ _

/-- A call of `randCode` that returns a code has counted one draw and
`n.toNat` reads, and the code is `n.toNat` bytes of the alphabet. -/
theorem randCode_ok_inv (env : Env) (n : Int) (a : GoString) (w : World) (c : GoString)
    (w1 : World) (h : randCode env n a w = .ok c w1) :
    w1 = { w with draws := w.draws + 1, randPos := w.randPos + n.toNat } ∧
      c.length = n.toNat ∧ ∀ x ∈ c, x ∈ a := by
  obtain ⟨hw, s, hc, hlen, hmem⟩ := randCodeLoop_ok_inv env a _ _ _ _ _ h
  simp only [List.nil_append] at hc
  subst hc
  exact ⟨hw, hlen, hmem⟩

/-- The code `randCode` returns depends on the world only through the
position in the random stream. -/
theorem randCode_frame (env : Env) (n : Int) (a : GoString) (w : World) (c : GoString)
    (w1 : World) (h : randCode env n a w = .ok c w1) (w2 : World)
    (hpos : w2.randPos = w.randPos) :
    randCode env n a w2 =
      .ok c { w2 with draws := w2.draws + 1, randPos := w2.randPos + n.toNat } :=
  randCodeLoop_frame env a _ _ _ _ _ h { w2 with draws := w2.draws + 1 } hpos

/-- With a non-empty alphabet, a call of `randCode` whose reads all succeed
returns a code. -/
theorem randCode_total (env : Env) (n : Int) (a : GoString) (ha : a ≠ []) (w : World)
    (hr : ∀ i, w.randPos ≤ i → i < w.randPos + n.toNat → (env.rand i).isSome = true) :
    ∃ c, randCode env n a w =
      .ok c { w with draws := w.draws + 1, randPos := w.randPos + n.toNat } :=
  randCodeLoop_total env a ha _ _ { w with draws := w.draws + 1 } hr

/-! ## insertCode: the two ways it ends -/

/-- A successful INSERT: the code was absent, no storage failure occurred,
and exactly the row `(code, now)` was appended. -/
theorem insertCode_none (env : Env) (w : World) (c : GoString) (w2 : World)
    (h : insertCode env w c = (none, w2)) :
    c ∉ w.codes ∧ env.fault w.execs = false ∧
      w2 = { w with execs := w.execs + 1, rows := w.rows ++ [(c, env.clock w.execs)] } := by
  unfold insertCode at h
  simp only at h
  split at h
  · simp at h
  · rename_i hf
    split at h
    · simp at h
    · rename_i hc
      simp only [Prod.mk.injEq, true_and] at h
      exact ⟨hc, by simpa using hf, h.symm⟩

/-- A failed INSERT counts one statement and changes nothing else. -/
theorem insertCode_some (env : Env) (w : World) (c : GoString) (e : Error) (w2 : World)
    (h : insertCode env w c = (some e, w2)) :
    w2 = { w with execs := w.execs + 1 } := by
  unfold insertCode at h
  simp only at h
  split at h
  · simp only [Prod.mk.injEq] at h; exact h.2.symm
  · split at h
    · simp only [Prod.mk.injEq] at h; exact h.2.symm
    · simp at h

/-- An INSERT of a code that is present fails, whatever the storage does. -/
theorem insertCode_present (env : Env) (w : World) (c : GoString) (hc : c ∈ w.codes) :
    ∃ e, insertCode env w c = (some e, { w with execs := w.execs + 1 }) := by
  by_cases hf : env.fault w.execs = true
  · exact ⟨.storage, by simp [insertCode, hf]⟩
  · exact ⟨.constraint, by simp [insertCode, hf, hc]⟩

/-- An INSERT of an absent code succeeds when the storage does not fail. -/
theorem insertCode_absent (env : Env) (w : World) (c : GoString) (hc : c ∉ w.codes)
    (hf : env.fault w.execs = false) :
    insertCode env w c =
      (none, { w with execs := w.execs + 1, rows := w.rows ++ [(c, env.clock w.execs)] }) := by
  unfold insertCode
  simp [hf, hc]

/-! ## The worlds of the retry loop -/

theorem retried_zero (w : World) (m : Nat) : w.retried 0 m = w := by
  simp [World.retried]

theorem retried_add (w : World) (m i j : Nat) :
    (w.retried i m).retried j m = w.retried (i + j) m := by
  simp only [World.retried, World.mk.injEq, true_and, and_true]
  refine ⟨by omega, ?_, by omega⟩
  rw [Nat.add_mul]; omega

theorem retried_retried (w : World) (m j : Nat) :
    (w.retried 1 m).retried j m = w.retried (j + 1) m := by
  simp only [World.retried, World.mk.injEq, true_and, and_true]
  refine ⟨by omega, ?_, by omega⟩
  rw [Nat.add_mul]; omega

theorem retried_rows (w : World) (j m : Nat) : (w.retried j m).rows = w.rows := rfl

theorem retried_codes (w : World) (j m : Nat) : (w.retried j m).codes = w.codes := rfl

theorem candidate_retried (env : Env) (n : Int) (a : GoString) (w : World) (j : Nat) :
    candidate env n a (w.retried 1 n.toNat) j = candidate env n a w (j + 1) := by
  simp only [candidate, retried_retried]

/-- The candidate number 0 is what `randCode` returns now. -/
theorem candidate_zero (env : Env) (n : Int) (a : GoString) (w : World) (c : GoString) :
    candidate env n a w 0 = some c ↔
      randCode env n a w =
        .ok c { w with draws := w.draws + 1, randPos := w.randPos + n.toNat } := by
  simp only [candidate, retried_zero]
  constructor
  · intro h
    split at h
    · rename_i c1 w1 hrc
      simp only [Option.some.injEq] at h
      subst h
      rw [hrc, (randCode_ok_inv env n a w _ _ hrc).1]
    · simp at h
  · intro h
    rw [h]

/-- A candidate is a code of `n.toNat` bytes of the alphabet. -/
theorem candidate_shape (env : Env) (n : Int) (a : GoString) (w : World) (j : Nat)
    (c : GoString) (h : candidate env n a w j = some c) :
    c.length = n.toNat ∧ ∀ x ∈ c, x ∈ a := by
  simp only [candidate] at h
  split at h
  · rename_i c1 w1 hrc
    simp only [Option.some.injEq] at h
    subst h
    exact (randCode_ok_inv env n a _ _ _ hrc).2
  · simp at h

/-! ## generateUnique: one iteration -/

/-- An iteration whose candidate is absent and whose INSERT meets no
storage failure returns that candidate and appends its row. -/
theorem generateUnique_hit (env : Env) (n : Int) (a : GoString) (fuel : Nat) (w : World)
    (c : GoString) (hc : candidate env n a w 0 = some c) (habs : c ∉ w.codes)
    (hf : env.fault w.execs = false) :
    generateUnique env n a (fuel + 1) w =
      .ok c { w with draws := w.draws + 1, randPos := w.randPos + n.toNat,
                     execs := w.execs + 1, rows := w.rows ++ [(c, env.clock w.execs)] } := by
  rw [candidate_zero] at hc
  have hins := insertCode_absent env
    { w with draws := w.draws + 1, randPos := w.randPos + n.toNat } c habs hf
  simp only [generateUnique, hc, hins]

/-- An iteration whose candidate is present draws again. -/
theorem generateUnique_miss (env : Env) (n : Int) (a : GoString) (fuel : Nat) (w : World)
    (c : GoString) (hc : candidate env n a w 0 = some c) (hpres : c ∈ w.codes) :
    generateUnique env n a (fuel + 1) w =
      generateUnique env n a fuel (w.retried 1 n.toNat) := by
  rw [candidate_zero] at hc
  obtain ⟨e, he⟩ := insertCode_present env
    { w with draws := w.draws + 1, randPos := w.randPos + n.toNat } c hpres
  simp only [generateUnique, hc, he]
  simp [World.retried]

/-- What `generateUnique` returns was absent from the ledger, is a code of
`n.toNat` bytes of the alphabet, and is the one row appended. -/
theorem generateUnique_ok_inv (env : Env) (n : Int) (a : GoString) :
    ∀ (fuel : Nat) (w : World) (c : GoString) (w1 : World),
      generateUnique env n a fuel w = .ok c w1 →
      c ∉ w.codes ∧ (∃ t, w1.rows = w.rows ++ [(c, t)]) ∧
        c.length = n.toNat ∧ ∀ x ∈ c, x ∈ a := by
  intro fuel
  induction fuel with
  | zero => intro w c w1 h; simp [generateUnique] at h
  | succ fuel ih =>
    intro w c w1 h
    simp only [generateUnique] at h
    split at h
    · rename_i code wr hrc
      obtain ⟨hwr, hshape⟩ := randCode_ok_inv env n a w code wr hrc
      split at h
      · rename_i w2 hins
        simp only [Outcome.ok.injEq] at h
        obtain ⟨hcode, hw⟩ := h
        subst hcode hw
        obtain ⟨habs, _, hw2⟩ := insertCode_none env wr code _ hins
        subst hwr
        exact ⟨habs, ⟨_, by rw [hw2]⟩, hshape⟩
      · rename_i e w2 hins
        have hw2 := insertCode_some env wr code e w2 hins
        obtain ⟨h1, ⟨t, h2⟩, h3⟩ := ih _ _ _ h
        subst hw2 hwr
        exact ⟨h1, ⟨t, h2⟩, h3⟩
    all_goals simp at h

/-- After `K` colliding candidates the loop stands where it started, `K`
draws and `K` statements later, with the ledger untouched. -/
theorem generateUnique_retry (env : Env) (n : Int) (a : GoString) (fuel : Nat) :
    ∀ (K : Nat) (w : World),
      (∀ j, j < K → ∃ cj, candidate env n a w j = some cj ∧ cj ∈ w.codes) →
      generateUnique env n a (K + fuel) w =
        generateUnique env n a fuel (w.retried K n.toNat) := by
  intro K
  induction K with
  | zero => intro w _; rw [retried_zero, Nat.zero_add]
  | succ K ih =>
    intro w hcoll
    obtain ⟨c0, hc0, hin0⟩ := hcoll 0 (Nat.succ_pos K)
    have hstep := generateUnique_miss env n a (K + fuel) w c0 hc0 hin0
    have hrest := ih (w.retried 1 n.toNat) (fun j hj => by
      obtain ⟨cj, hcj, hinj⟩ := hcoll (j + 1) (Nat.succ_lt_succ hj)
      exact ⟨cj, by rw [candidate_retried]; exact hcj, hinj⟩)
    rw [show K + 1 + fuel = K + fuel + 1 by omega, hstep, hrest, retried_add,
      Nat.add_comm 1 K]

/-! ## randCode: the claims -/

/-- For every length `n ≥ 0` and every non-empty alphabet, when the `n`
reads of the random source succeed, `randCode` returns a string of exactly
`n` bytes, each of which is a byte of the alphabet. -/
theorem randCode_length_and_alphabet_bytes (env : Env) (n : Int) (alphabet : GoString)
    (w : World) (hn : 0 ≤ n) (ha : alphabet ≠ [])
    (hr : ∀ i, w.randPos ≤ i → i < w.randPos + n.toNat → (env.rand i).isSome = true) :
    ∃ code w1, randCode env n alphabet w = .ok code w1 ∧
      (code.length : Int) = n ∧ ∀ x ∈ code, x ∈ alphabet := by
  obtain ⟨c, hc⟩ := randCode_total env n alphabet ha w hr
  obtain ⟨_, hlen, hmem⟩ := randCode_ok_inv env n alphabet w c _ hc
  exact ⟨c, _, hc, by rw [hlen]; exact Int.toNat_of_nonneg hn, hmem⟩

/-- The call `randCode(10, "AB")` returns 10 bytes, each 'A' or 'B'. -/
theorem randCode_bytes_AB :
    ∃ code w1, randCode envFair 10 (ascii "AB") (worldOf []) = .ok code w1 ∧
      (code.length : Int) = 10 ∧ ∀ x ∈ code, x ∈ ascii "AB" :=
  randCode_length_and_alphabet_bytes envFair 10 (ascii "AB") (worldOf []) (by decide)
    (by decide) (fun _ _ _ => rfl)

/-- A string of ASCII characters is the list of its characters: each takes
one byte. -/
theorem utf8Encode_ascii : ∀ cs : List Nat, (∀ c ∈ cs, c < 128) → utf8Encode cs = cs := by
  intro cs
  induction cs with
  | nil => intro _; rfl
  | cons c cs ih =>
    intro h
    have hc : c < 128 := h c (List.mem_cons_self c cs)
    simp only [utf8Encode, utf8EncodeChar, if_pos hc,
      ih (fun x hx => h x (List.mem_cons_of_mem c hx)), List.singleton_append]

/-- Over an alphabet of ASCII characters the bytes drawn are characters:
for `n ≥ 0` and successful reads, `randCode` returns the string of exactly
`n` characters, each a character of the alphabet. -/
theorem randCode_characters_of_ascii_alphabet (env : Env) (n : Int) (chars : List Nat)
    (w : World) (hn : 0 ≤ n) (ha : chars ≠ []) (hascii : ∀ c ∈ chars, c < 128)
    (hr : ∀ i, w.randPos ≤ i → i < w.randPos + n.toNat → (env.rand i).isSome = true) :
    ∃ cs w1, randCode env n (utf8Encode chars) w = .ok (utf8Encode cs) w1 ∧
      (cs.length : Int) = n ∧ ∀ c ∈ cs, c ∈ chars := by
  rw [utf8Encode_ascii chars hascii]
  obtain ⟨code, w1, hrun, hlen, hmem⟩ :=
    randCode_length_and_alphabet_bytes env n chars w hn ha hr
  refine ⟨code, w1, ?_, hlen, hmem⟩
  rw [utf8Encode_ascii code (fun c hc => hascii c (hmem c hc))]
  exact hrun

/-- C4, on the code.  With the alphabet "é", one character stored as the
two bytes 195 and 169, and the values 1 and 0 drawn, `randCode(2, "é")`
returns the two bytes 169, 195: the bound of the draw is the byte length
and each draw picks a byte.  That string is not made of characters of the
alphabet, whatever their number: its encoding would begin with 195. -/
theorem C4_multibyte_alphabet_sampled_by_bytes :
    utf8Encode [233] = [195, 169] ∧
    randCode envOneZero 2 (utf8Encode [233]) (worldOf []) =
      .ok [169, 195] { worldOf [] with draws := 1, randPos := 2 } ∧
    ¬ ∃ cs : List Nat, (∀ c ∈ cs, c ∈ [233]) ∧ utf8Encode cs = [169, 195] := by
  refine ⟨by decide, by decide, ?_⟩
  rintro ⟨cs, hmem, henc⟩
  cases cs with
  | nil => simp [utf8Encode] at henc
  | cons c rest =>
    have hc : c = 233 := by simpa using hmem c (List.mem_cons_self c rest)
    subst hc
    simp [utf8Encode, utf8EncodeChar] at henc

/-- C10. For every alphabet, `randCode(n, alphabet)` with `n ≤ 0` returns
the empty string with a nil error and makes no read of the random source;
with `n ≥ 1` it panics exactly when the alphabet is empty, in which case the
panic comes from the draw with bound 0, before any read, and neither a
code nor an error is returned. -/
theorem C10_randCode_degenerate (env : Env) (n : Int) (alphabet : GoString) (w : World) :
    (n ≤ 0 → randCode env n alphabet w = .ok [] { w with draws := w.draws + 1 }) ∧
    (1 ≤ n → alphabet = [] →
      randCode env n alphabet w = .panic { w with draws := w.draws + 1 }) ∧
    (1 ≤ n → ((∃ w1, randCode env n alphabet w = .panic w1) ↔ alphabet = [])) := by
  have hempty : 1 ≤ n → alphabet = [] →
      randCode env n alphabet w = .panic { w with draws := w.draws + 1 } := by
    intro hn ha
    obtain ⟨k, hk⟩ : ∃ k, n.toNat = k + 1 := ⟨n.toNat - 1, by omega⟩
    simp [randCode, hk, randCodeLoop, ha]
  refine ⟨?_, hempty, ?_⟩
  · intro hn
    simp [randCode, Int.toNat_eq_zero.mpr hn, randCodeLoop]
  · intro hn
    constructor
    · rintro ⟨w1, h⟩
      by_contra ha
      exact randCodeLoop_no_panic env alphabet ha _ _ _ _ h
    · intro ha
      exact ⟨_, hempty hn ha⟩

/-- The three degenerate calls at concrete inputs: length 0, length -3, and
an empty alphabet with length 2. -/
theorem C10_witness :
    randCode envFair 0 (ascii "AB") (worldOf []) = .ok [] { worldOf [] with draws := 1 } ∧
    randCode envFair (-3) [] (worldOf []) = .ok [] { worldOf [] with draws := 1 } ∧
    randCode envFair 2 [] (worldOf []) = .panic { worldOf [] with draws := 1 } ∧
    ¬ ∃ w1, randCode envFair 2 (ascii "AB") (worldOf []) = .panic w1 :=
  ⟨(C10_randCode_degenerate envFair 0 (ascii "AB") (worldOf [])).1 (by decide),
   (C10_randCode_degenerate envFair (-3) [] (worldOf [])).1 (by decide),
   (C10_randCode_degenerate envFair 2 [] (worldOf [])).2.1 (by decide) rfl,
   fun h => absurd
     (((C10_randCode_degenerate envFair 2 (ascii "AB") (worldOf [])).2.2 (by decide)).mp h)
     (by decide)⟩

/-! ## generateUnique: the retry loop -/

/-- C3. For every `K`, every ledger and every draw sequence whose first `K`
candidates are all in the ledger and whose next candidate `c` is not, when
the INSERT of `c` meets no storage failure, `generateUnique` returns `c`
with any fuel above `K`, after exactly `K + 1` draws and `K + 1` INSERT
statements, and the ledger gains the one row of `c`. -/
theorem C3_collision_retry (env : Env) (n : Int) (alphabet : GoString) (w : World)
    (K : Nat) (c : GoString)
    (hcoll : ∀ j, j < K → ∃ cj, candidate env n alphabet w j = some cj ∧ cj ∈ w.codes)
    (hdraw : candidate env n alphabet w K = some c) (habs : c ∉ w.codes)
    (hf : env.fault (w.execs + K) = false) (fuel : Nat) (hfuel : K + 1 ≤ fuel) :
    generateUnique env n alphabet fuel w =
      .ok c { w with draws := w.draws + (K + 1),
                     randPos := w.randPos + (K + 1) * n.toNat,
                     execs := w.execs + (K + 1),
                     rows := w.rows ++ [(c, env.clock (w.execs + K))] } := by
  obtain ⟨f, rfl⟩ : ∃ f, fuel = K + (f + 1) := ⟨fuel - (K + 1), by omega⟩
  rw [generateUnique_retry env n alphabet (f + 1) K w hcoll]
  have h0 : candidate env n alphabet (w.retried K n.toNat) 0 = some c := by
    simp only [candidate, retried_add, Nat.add_zero] at hdraw ⊢
    exact hdraw
  rw [generateUnique_hit env n alphabet f (w.retried K n.toNat) c h0 habs hf]
  simp only [World.retried, Outcome.ok.injEq, World.mk.injEq, true_and, and_true]
  refine ⟨by omega, ?_, by omega⟩
  rw [Nat.add_mul]; omega

/-- A ledger holding "A" and "B", an alphabet "ABC" and the draws A, B, C:
two collisions, then "C" is returned after three draws. -/
theorem C3_witness :
    generateUnique envFair 1 (ascii "ABC") 3 (worldOf [(ascii "A", 0), (ascii "B", 0)]) =
      .ok (ascii "C")
        { rows := [(ascii "A", 0), (ascii "B", 0), (ascii "C", 1002)],
          draws := 3, randPos := 3, execs := 3, renders := 0, out := [] } :=
  C3_collision_retry envFair 1 (ascii "ABC") (worldOf [(ascii "A", 0), (ascii "B", 0)]) 2
    (ascii "C") (by decide) (by decide) (by decide) (by decide) 3 (by decide)

/-- One direction of C9: a call that returns a code has met an absent
candidate. -/
theorem generateUnique_ok_candidate (env : Env) (n : Int) (a : GoString) :
    ∀ (fuel : Nat) (w : World) (c : GoString) (w1 : World),
      generateUnique env n a fuel w = .ok c w1 →
      ∃ j, candidate env n a w j = some c ∧ c ∉ w.codes := by
  intro fuel
  induction fuel with
  | zero => intro w c w1 h; simp [generateUnique] at h
  | succ fuel ih =>
    intro w c w1 h
    simp only [generateUnique] at h
    split at h
    · rename_i code wr hrc
      obtain ⟨hwr, _⟩ := randCode_ok_inv env n a w code wr hrc
      have hcand : candidate env n a w 0 = some code := by
        rw [candidate_zero, hrc, hwr]
      split at h
      · rename_i w2 hins
        simp only [Outcome.ok.injEq] at h
        obtain ⟨hcode, _⟩ := h
        subst hcode
        obtain ⟨habs, _, _⟩ := insertCode_none env wr code _ hins
        subst hwr
        exact ⟨0, hcand, habs⟩
      · rename_i e w2 hins
        have hw2 := insertCode_some env wr code e w2 hins
        subst hw2 hwr
        obtain ⟨j, hj, hjabs⟩ := ih _ _ _ h
        refine ⟨j + 1, ?_, hjabs⟩
        rw [← candidate_retried]
        have hworld : w.retried 1 n.toNat =
            { w with draws := w.draws + 1, randPos := w.randPos + n.toNat,
                     execs := w.execs + 1 } := by
          simp [World.retried]
        rw [hworld]
        exact hj
    all_goals simp at h

/-- Other direction of C9: with no storage failure, an absent candidate
somewhere in the sequence makes the call return a code, provided each
earlier draw delivers a candidate. -/
theorem generateUnique_returns_of_absent (env : Env) (n : Int) (a : GoString)
    (hf : ∀ i, env.fault i = false) :
    ∀ (j : Nat) (w : World),
      (∀ i, ∃ ci, candidate env n a w i = some ci) →
      (∃ c, candidate env n a w j = some c ∧ c ∉ w.codes) →
      ∃ fuel c w1, generateUnique env n a fuel w = .ok c w1 := by
  intro j
  induction j with
  | zero =>
    rintro w _ ⟨c, hc, habs⟩
    exact ⟨1, c, _, generateUnique_hit env n a 0 w c hc habs (hf _)⟩
  | succ j ih =>
    rintro w hall ⟨c, hc, habs⟩
    obtain ⟨c0, hc0⟩ := hall 0
    by_cases h0 : c0 ∈ w.codes
    · obtain ⟨fuel, c1, w1, h1⟩ := ih (w.retried 1 n.toNat)
        (fun i => by rw [candidate_retried]; exact hall (i + 1))
        ⟨c, by rw [candidate_retried]; exact hc, habs⟩
      exact ⟨fuel + 1, c1, w1, by rw [generateUnique_miss env n a fuel w c0 hc0 h0]; exact h1⟩
    · exact ⟨1, c0, _, generateUnique_hit env n a 0 w c0 hc0 h0 (hf _)⟩

/-- With a non-empty alphabet and a reader that never fails, every
position of the draw sequence delivers a candidate. -/
theorem candidate_total (env : Env) (n : Int) (a : GoString) (ha : a ≠ [])
    (hr : ∀ i, (env.rand i).isSome = true) (w : World) (j : Nat) :
    ∃ c, candidate env n a w j = some c := by
  obtain ⟨c, hc⟩ := randCode_total env n a ha (w.retried j n.toNat) (fun i _ _ => hr i)
  exact ⟨c, by simp only [candidate, hc]⟩

/-- While every candidate met is in the ledger and no draw fails, the loop
uses up any fuel. -/
theorem generateUnique_diverge (env : Env) (n : Int) (a : GoString) :
    ∀ (fuel : Nat) (w : World),
      (∀ j, ∃ c, candidate env n a w j = some c ∧ c ∈ w.codes) →
      generateUnique env n a fuel w = .diverge := by
  intro fuel w hall
  have h := generateUnique_retry env n a 0 fuel w (fun j _ => hall j)
  rw [Nat.add_zero] at h
  rw [h]
  rfl

/-- C9. For every ledger, length, non-empty alphabet and infinite draw
sequence, with no storage failure and no failure of the random source,
`generateUnique` returns a code (for some amount of fuel) if and only if
some candidate of the sequence is absent from the ledger; and when every
code of that length over the alphabet is in the ledger, it uses up every
amount of fuel: it never returns. -/
theorem C9_returns_iff_absent_candidate (env : Env) (n : Int) (alphabet : GoString)
    (w : World) (ha : alphabet ≠ []) (hr : ∀ i, (env.rand i).isSome = true)
    (hf : ∀ i, env.fault i = false) :
    (Returns env n alphabet w ↔
      ∃ j c, candidate env n alphabet w j = some c ∧ c ∉ w.codes) ∧
    ((∀ c : GoString, c.length = n.toNat → (∀ x ∈ c, x ∈ alphabet) → c ∈ w.codes) →
      ∀ fuel, generateUnique env n alphabet fuel w = .diverge) := by
  constructor
  · constructor
    · rintro ⟨fuel, c, w1, h⟩
      obtain ⟨j, hj, habs⟩ := generateUnique_ok_candidate env n alphabet fuel w c w1 h
      exact ⟨j, c, hj, habs⟩
    · rintro ⟨j, c, hj, habs⟩
      exact generateUnique_returns_of_absent env n alphabet hf j w
        (candidate_total env n alphabet ha hr w) ⟨c, hj, habs⟩
  · intro hfull fuel
    refine generateUnique_diverge env n alphabet fuel w (fun j => ?_)
    obtain ⟨c, hc⟩ := candidate_total env n alphabet ha hr w j
    obtain ⟨hlen, hmem⟩ := candidate_shape env n alphabet w j c hc
    exact ⟨c, hc, hfull c hlen hmem⟩

/-- A call that returns, since its second candidate "B" is absent, and a
call of length 0 against a ledger that holds the empty code, which never
returns. -/
theorem C9_witness :
    Returns envFair 1 (ascii "AB") (worldOf [(ascii "A", 0)]) ∧
    ∀ fuel, generateUnique envFair 0 (ascii "AB") fuel (worldOf [([], 0)]) = .diverge :=
  ⟨(C9_returns_iff_absent_candidate envFair 1 (ascii "AB") (worldOf [(ascii "A", 0)])
      (by decide) (fun _ => rfl) (fun _ => rfl)).1.mpr ⟨1, ascii "B", by decide, by decide⟩,
   (C9_returns_iff_absent_candidate envFair 0 (ascii "AB") (worldOf [([], 0)])
      (by decide) (fun _ => rfl) (fun _ => rfl)).2
      (fun c hlen _ => by
        have hnil : c = [] := List.length_eq_zero.mp hlen
        subst hnil
        decide)⟩

/-! ## The batch loop -/

/-- The function `writeQRPNG` counts one call and changes nothing else. -/
theorem writeQRPNG_world (env : Env) (w : World) :
    (writeQRPNG env w).2 = { w with renders := w.renders + 1 } := by
  unfold writeQRPNG
  split <;> rfl

/-- A batch that completes has issued `k` codes, pairwise distinct and all
absent from the initial ledger, and has appended exactly their rows, in
order, after the rows that were there. -/
theorem batchLoop_ok_inv (env : Env) (len : Int) (a : GoString) (fuel : Nat) :
    ∀ (k : Nat) (w : World) (codes : List GoString) (w1 : World),
      batchLoop env len a fuel k w = .ok codes w1 →
      codes.length = k ∧ codes.Nodup ∧ (∀ c ∈ codes, c ∉ w.codes) ∧
        ∃ ts : List Int, ts.length = k ∧ w1.rows = w.rows ++ codes.zip ts := by
  intro k
  induction k with
  | zero =>
    intro w codes w1 h
    simp only [batchLoop, Outcome.ok.injEq] at h
    obtain ⟨hc, hw⟩ := h
    subst hc hw
    exact ⟨rfl, List.nodup_nil, by simp, [], rfl, by simp⟩
  | succ k ih =>
    intro w codes w1 h
    simp only [batchLoop] at h
    split at h
    · rename_i code wg hgen
      obtain ⟨habs, ⟨t, hrows⟩, _⟩ := generateUnique_ok_inv env len a fuel w code wg hgen
      split at h
      · simp at h
      · rename_i w2 hwr
        have hw2 : w2 = { wg with renders := wg.renders + 1 } := by
          have := writeQRPNG_world env wg
          rw [hwr] at this
          exact this
        split at h
        · rename_i rest w3 hrec
          simp only [Outcome.ok.injEq] at h
          obtain ⟨hcodes, hw3⟩ := h
          subst hcodes hw3
          obtain ⟨hlen, hnd, hfresh, ts, htl, hr3⟩ := ih _ _ _ hrec
          have hcodes2 : ∀ c ∈ rest, c ∉ w.codes ∧ c ≠ code := by
            intro c hc
            have := hfresh c hc
            simp only [World.codes, hw2, hrows, List.map_append, List.map_cons, List.map_nil,
              List.mem_append, List.mem_singleton, not_or] at this
            exact this
          refine ⟨by simp [hlen], ?_, ?_, t :: ts, by simp [htl], ?_⟩
          · refine List.nodup_cons.mpr ⟨fun hmem => (hcodes2 code hmem).2 rfl, hnd⟩
          · intro c hc
            rcases List.mem_cons.mp hc with rfl | hc
            · exact habs
            · exact (hcodes2 c hc).1
          · rw [hr3]
            simp [hw2, hrows]
        · rename_i hne
          cases hrec : batchLoop env len a fuel k
              { w2 with out := w2.out ++ [Line.generated code] } with
          | ok v wv => exact absurd hrec (hne v wv)
          | error e wv => rw [hrec] at h; simp at h
          | panic wv => rw [hrec] at h; simp at h
          | fatal e wv => rw [hrec] at h; simp at h
          | diverge => rw [hrec] at h; simp at h
    all_goals simp at h

/-- C1. For every initial ledger, every count `N`, every length and
alphabet and every environment (random draws included), when the batch of
`N` successive calls of `generateUnique` against the one ledger completes,
the `N` codes returned are pairwise distinct and each of them differs from
every code that was in the ledger before the first call. -/
theorem C1_issued_codes_distinct (env : Env) (len : Int) (alphabet : GoString) (fuel : Nat)
    (N : Nat) (w : World) (codes : List GoString) (w1 : World)
    (h : batchLoop env len alphabet fuel N w = .ok codes w1) :
    codes.length = N ∧ codes.Pairwise (fun c d => c ≠ d) ∧ ∀ c ∈ codes, c ∉ w.codes := by
  obtain ⟨hlen, hnd, hfresh, _⟩ := batchLoop_ok_inv env len alphabet fuel N w codes w1 h
  exact ⟨hlen, hnd, hfresh⟩

/-- A batch of two against a ledger holding "A": the draw "A" collides and
the codes "B" and "C" are issued. -/
theorem C1_witness :
    [ascii "B", ascii "C"].length = 2 ∧
    [ascii "B", ascii "C"].Pairwise (fun c d => c ≠ d) ∧
    ∀ c ∈ [ascii "B", ascii "C"], c ∉ (worldOf [(ascii "A", 0)]).codes :=
  C1_issued_codes_distinct envFair 1 (ascii "ABC") 5 2 (worldOf [(ascii "A", 0)])
    [ascii "B", ascii "C"]
    { rows := [(ascii "A", 0), (ascii "B", 1001), (ascii "C", 1002)],
      draws := 3, randPos := 3, execs := 3, renders := 2,
      out := [.generated (ascii "B"), .generated (ascii "C")] }
    (by decide)

/-- C8. For every initial ledger and every count, a batch of `count`
successful issuances appends exactly `count` rows to the ledger, one per
returned code and in the order of issue (so none for a discarded
candidate), after the rows that were there, which are unchanged; and an
INSERT that fails leaves the rows exactly as they were. -/
theorem C8_append_only_delta (env : Env) (len : Int) (alphabet : GoString) (fuel : Nat)
    (count : Nat) (w : World) :
    (∀ codes w1, batchLoop env len alphabet fuel count w = .ok codes w1 →
      codes.length = count ∧
      ∃ times : List Int, times.length = count ∧ w1.rows = w.rows ++ codes.zip times) ∧
    (∀ code e w2, insertCode env w code = (some e, w2) → w2.rows = w.rows) := by
  constructor
  · intro codes w1 h
    obtain ⟨hlen, _, _, hrows⟩ := batchLoop_ok_inv env len alphabet fuel count w codes w1 h
    exact ⟨hlen, hrows⟩
  · intro code e w2 h
    rw [insertCode_some env w code e w2 h]

/-- The batch of two of `C1_witness`: two rows appended after the row of
"A"; and the rejected INSERT of "A" changes no row. -/
theorem C8_witness :
    ([ascii "B", ascii "C"].length = 2 ∧
      ∃ times : List Int, times.length = 2 ∧
        [(ascii "A", (0 : Int)), (ascii "B", 1001), (ascii "C", 1002)] =
          (worldOf [(ascii "A", 0)]).rows ++ [ascii "B", ascii "C"].zip times) ∧
    ({ worldOf [(ascii "A", 0)] with execs := 1 } : World).rows =
      (worldOf [(ascii "A", 0)]).rows :=
  ⟨(C8_append_only_delta envFair 1 (ascii "ABC") 5 2 (worldOf [(ascii "A", 0)])).1
      [ascii "B", ascii "C"]
      { rows := [(ascii "A", 0), (ascii "B", 1001), (ascii "C", 1002)],
        draws := 3, randPos := 3, execs := 3, renders := 2,
        out := [.generated (ascii "B"), .generated (ascii "C")] }
      (by decide),
   (C8_append_only_delta envFair 1 (ascii "ABC") 5 2 (worldOf [(ascii "A", 0)])).2
      (ascii "A") .constraint { worldOf [(ascii "A", 0)] with execs := 1 } (by decide)⟩

/-! ## The add-used block -/

/-- Recording a code whose normal form is in the ledger prints "Code
already recorded" and changes no row, whatever the storage does. -/
theorem recordUsed_present (u : Unicode) (env : Env) (raw : GoString) (w : World)
    (h : normalize u raw ∈ w.codes) :
    recordUsed u env raw w =
      { w with execs := w.execs + 1,
               out := w.out ++ [.alreadyRecorded (normalize u raw)] } := by
  obtain ⟨e, he⟩ := insertCode_present env w (normalize u raw) h
  simp only [normalize] at he
  simp only [recordUsed, he, normalize]

/-- Recording a code whose normal form is absent, with no storage failure,
appends its row and prints "Recorded used code". -/
theorem recordUsed_absent (u : Unicode) (env : Env) (raw : GoString) (w : World)
    (h : normalize u raw ∉ w.codes) (hf : env.fault w.execs = false) :
    recordUsed u env raw w =
      { w with execs := w.execs + 1,
               rows := w.rows ++ [(normalize u raw, env.clock w.execs)],
               out := w.out ++ [.recordedUsed (normalize u raw)] } := by
  have he := insertCode_absent env w (normalize u raw) h hf
  simp only [normalize] at he
  simp only [recordUsed, he, normalize]

/-- C5. For every raw input, when the INSERT meets no storage failure,
after `recordUsed` the ledger holds `normalize raw`, the upper-cased
trimmed input: if it was absent, exactly its row was appended and "Recorded
used code" was printed.  A subsequent `recordUsed` of any raw input with
the same normal form prints "Code already recorded" and leaves the rows
unchanged. -/
theorem C5_recordUsed_normalizes (u : Unicode) (env : Env) (raw : GoString) (w : World)
    (hf : env.fault w.execs = false) :
    normalize u raw ∈ (recordUsed u env raw w).codes ∧
    (normalize u raw ∉ w.codes →
      (recordUsed u env raw w).rows = w.rows ++ [(normalize u raw, env.clock w.execs)] ∧
      (recordUsed u env raw w).out = w.out ++ [.recordedUsed (normalize u raw)]) ∧
    (∀ (env2 : Env) (raw2 : GoString), normalize u raw2 = normalize u raw →
      (recordUsed u env2 raw2 (recordUsed u env raw w)).rows = (recordUsed u env raw w).rows ∧
      (recordUsed u env2 raw2 (recordUsed u env raw w)).out =
        (recordUsed u env raw w).out ++ [.alreadyRecorded (normalize u raw)]) := by
  have hin : normalize u raw ∈ (recordUsed u env raw w).codes := by
    by_cases h : normalize u raw ∈ w.codes
    · rw [recordUsed_present u env raw w h]; exact h
    · rw [recordUsed_absent u env raw w h hf]; simp [World.codes]
  refine ⟨hin, ?_, ?_⟩
  · intro h
    rw [recordUsed_absent u env raw w h hf]
    exact ⟨rfl, rfl⟩
  · intro env2 raw2 heq
    rw [recordUsed_present u env2 raw2 _ (by rw [heq]; exact hin), heq]
    exact ⟨rfl, rfl⟩

/-- The scenario of the specification: `recordUsed(" abc123 ")` on an empty
ledger commits "ABC123", and `recordUsed("ABC123")` then reports it as
already recorded. -/
theorem C5_witness :
    normalize asciiOnly (ascii " abc123 ") = ascii "ABC123" ∧
    (recordUsed asciiOnly envFair (ascii " abc123 ") (worldOf [])).rows =
      [(ascii "ABC123", 1000)] ∧
    (recordUsed asciiOnly envFair (ascii "ABC123")
        (recordUsed asciiOnly envFair (ascii " abc123 ") (worldOf []))).out =
      [.recordedUsed (ascii "ABC123"), .alreadyRecorded (ascii "ABC123")] ∧
    (recordUsed asciiOnly envFair (ascii "ABC123")
        (recordUsed asciiOnly envFair (ascii " abc123 ") (worldOf []))).rows =
      [(ascii "ABC123", 1000)] :=
  ⟨by decide,
   ((C5_recordUsed_normalizes asciiOnly envFair (ascii " abc123 ") (worldOf []) rfl).2.1
      (by decide)).1,
   ((C5_recordUsed_normalizes asciiOnly envFair (ascii " abc123 ") (worldOf []) rfl).2.2
      envFair (ascii "ABC123") (by decide)).2,
   ((C5_recordUsed_normalizes asciiOnly envFair (ascii " abc123 ") (worldOf []) rfl).2.2
      envFair (ascii "ABC123") (by decide)).1.trans
     ((C5_recordUsed_normalizes asciiOnly envFair (ascii " abc123 ") (worldOf []) rfl).2.1
        (by decide)).1⟩

/-! ## Storage failures and letter case: what the code does -/

/-- The only error a loop of `randCode` returns is the failure of the
random source. -/
theorem randCodeLoop_error (env : Env) (a : GoString) :
    ∀ (k : Nat) (b : GoString) (w : World) (e : Error) (w1 : World),
      randCodeLoop env a k b w = .error e w1 → e = .entropy := by
  intro k
  induction k with
  | zero => intro b w e w1 h; simp [randCodeLoop] at h
  | succ k ih =>
    intro b w e w1 h
    simp only [randCodeLoop] at h
    split at h
    · simp at h
    · split at h
      · simp only [Outcome.error.injEq] at h
        exact h.1.symm
      · split at h
        · simp at h
        · exact ih _ _ _ _ h

/-- No call of `generateUnique` returns a storage error: the only error it
returns is the failure of the random source. -/
theorem generateUnique_error (env : Env) (n : Int) (a : GoString) :
    ∀ (fuel : Nat) (w : World) (e : Error) (w1 : World),
      generateUnique env n a fuel w = .error e w1 → e = .entropy := by
  intro fuel
  induction fuel with
  | zero => intro w e w1 h; simp [generateUnique] at h
  | succ fuel ih =>
    intro w e w1 h
    simp only [generateUnique] at h
    split at h
    · split at h
      · simp at h
      · exact ih _ _ _ h
    · rename_i e1 wr hrc
      simp only [Outcome.error.injEq] at h
      rw [← h.1]
      exact randCodeLoop_error env a _ _ _ _ _ hrc
    all_goals simp at h

/-- More fuel does not change what a call that ended has answered. -/
theorem generateUnique_fuel_mono (env : Env) (n : Int) (a : GoString) :
    ∀ (fuel : Nat) (w : World) (more : Nat),
      generateUnique env n a fuel w ≠ .diverge →
      generateUnique env n a (fuel + more) w = generateUnique env n a fuel w := by
  intro fuel
  induction fuel with
  | zero => intro w more h; exact absurd rfl h
  | succ fuel ih =>
    intro w more h
    rw [show fuel + 1 + more = fuel + more + 1 by omega]
    simp only [generateUnique] at h ⊢
    cases hrc : randCode env n a w with
    | ok code wr =>
      rw [hrc] at h
      simp only at h ⊢
      cases hins : insertCode env wr code with
      | mk e w2 =>
        rw [hins] at h
        cases e with
        | none => rfl
        | some e => exact ih _ _ h
    | error e wr => rfl
    | panic wr => rfl
    | fatal e wr => rfl
    | diverge => rfl

/-- With a storage that fails at every INSERT, a non-empty alphabet and a
random source that works, `generateUnique` uses up every amount of fuel:
it neither returns a code nor reports the failure. -/
theorem generateUnique_storage_down (env : Env) (n : Int) (a : GoString) (ha : a ≠ [])
    (hr : ∀ i, (env.rand i).isSome = true) (hf : ∀ i, env.fault i = true) :
    ∀ (fuel : Nat) (w : World), generateUnique env n a fuel w = .diverge := by
  intro fuel
  induction fuel with
  | zero => intro w; rfl
  | succ fuel ih =>
    intro w
    obtain ⟨c, hc⟩ := randCode_total env n a ha w (fun i _ _ => hr i)
    simp only [generateUnique, hc, insertCode, hf, if_true]
    exact ih _

/-- C2, on the code.  With an empty ledger, the candidate "A" is absent and
its INSERT fails with a storage failure that is no constraint violation;
`generateUnique` does not return that error: it draws again and returns
"B" after two draws and two INSERT statements.  With any fuel it never
returns a storage error. -/
theorem C2_storage_failure_is_retried :
    randCode envFaultFirst 1 (ascii "ABC") (worldOf []) =
      .ok (ascii "A") { worldOf [] with draws := 1, randPos := 1 } ∧
    insertCode envFaultFirst { worldOf [] with draws := 1, randPos := 1 } (ascii "A") =
      (some .storage, { worldOf [] with draws := 1, randPos := 1, execs := 1 }) ∧
    generateUnique envFaultFirst 1 (ascii "ABC") 2 (worldOf []) =
      .ok (ascii "B")
        { rows := [(ascii "B", 1001)], draws := 2, randPos := 2, execs := 2,
          renders := 0, out := [] } ∧
    ∀ fuel w1, generateUnique envFaultFirst 1 (ascii "ABC") fuel (worldOf []) ≠
      .error .storage w1 :=
  ⟨by decide, by decide, by decide,
   fun fuel w1 h => absurd (generateUnique_error _ _ _ fuel _ _ _ h) (by decide)⟩

/-- C6, on the code.  With an empty ledger and a storage that fails, the
INSERT of "ABC" ends with a storage failure, the code is not in the ledger
before or after, and the block prints "Code already recorded: ABC". -/
theorem C6_storage_failure_reported_as_recorded :
    ascii "ABC" ∉ (worldOf []).codes ∧
    insertCode envFaultAlways (worldOf []) (normalize asciiOnly (ascii "ABC")) =
      (some .storage, { worldOf [] with execs := 1 }) ∧
    recordUsed asciiOnly envFaultAlways (ascii "ABC") (worldOf []) =
      { worldOf [] with execs := 1, out := [.alreadyRecorded (ascii "ABC")] } := by
  decide

/-- C7, on the code.  With the alphabet "ab", `generateUnique` commits the
code "aa", which differs from its upper-case form "AA"; recording "aa" as
used then commits "AA" next to it, so the ledger holds both. -/
theorem C7_lowercase_code_committed :
    generateUnique envZero 2 (ascii "ab") 1 (worldOf []) =
      .ok (ascii "aa")
        { rows := [(ascii "aa", 1000)], draws := 1, randPos := 2, execs := 1,
          renders := 0, out := [] } ∧
    ToUpper asciiOnly (ascii "aa") = ascii "AA" ∧
    ascii "aa" ≠ ascii "AA" ∧
    (recordUsed asciiOnly envZero (ascii "aa")
        { rows := [(ascii "aa", 1000)], draws := 1, randPos := 2, execs := 1,
          renders := 0, out := [] }).codes = [ascii "aa", ascii "AA"] := by
  decide

/-! ## Where the stored codes are in upper case -/

theorem upperByte_le (c : Nat) : upperByte c ≤ c := by
  unfold upperByte
  split <;> omega

theorem upperByte_idem (c : Nat) : upperByte (upperByte c) = upperByte c := by
  unfold upperByte
  split_ifs <;> omega

/-- On a string of ASCII bytes `strings.ToUpper` is the byte-wise map. -/
theorem ToUpper_ascii (u : Unicode) (s : GoString) (hs : ∀ x ∈ s, x < 128) :
    ToUpper u s = s.map upperByte := by
  unfold ToUpper
  rw [if_pos]
  rw [List.all_eq_true]
  intro x hx
  exact decide_eq_true (hs x hx)

/-- The upper-case form of an ASCII string is its own upper-case form. -/
theorem ToUpper_ToUpper_ascii (u : Unicode) (s : GoString) (hs : ∀ x ∈ s, x < 128) :
    ToUpper u (ToUpper u s) = ToUpper u s := by
  rw [ToUpper_ascii u s hs, ToUpper_ascii u (s.map upperByte)]
  · rw [List.map_map]
    exact List.map_congr_left (fun x _ => upperByte_idem x)
  · intro y hy
    obtain ⟨x, hx, rfl⟩ := List.mem_map.mp hy
    exact lt_of_le_of_lt (upperByte_le x) (hs x hx)

theorem trimSpaceEnd_ascii (u : Unicode) :
    ∀ r : GoString, (∀ x ∈ r, x < 128) → ∀ x ∈ trimSpaceEnd u r, x < 128 := by
  intro r
  induction r with
  | nil => intro _ x hx; simp [trimSpaceEnd] at hx
  | cons c r ih =>
    intro hr x hx
    have hc : ¬ 128 ≤ c := Nat.not_le.mpr (hr c (List.mem_cons_self c r))
    simp only [trimSpaceEnd, if_neg hc] at hx
    split at hx
    · exact ih (fun y hy => hr y (List.mem_cons_of_mem c hy)) x hx
    · exact hr x (List.mem_reverse.mp hx)

theorem TrimSpace_ascii (u : Unicode) :
    ∀ s : GoString, (∀ x ∈ s, x < 128) → ∀ x ∈ TrimSpace u s, x < 128 := by
  intro s
  induction s with
  | nil => intro _ x hx; simp [TrimSpace] at hx
  | cons c s ih =>
    intro hs x hx
    have hc : ¬ 128 ≤ c := Nat.not_le.mpr (hs c (List.mem_cons_self c s))
    simp only [TrimSpace, if_neg hc] at hx
    split at hx
    · exact ih (fun y hy => hs y (List.mem_cons_of_mem c hy)) x hx
    · exact trimSpaceEnd_ascii u _ (fun y hy => hs y (List.mem_reverse.mp hy)) x hx

/-- The code that `recordUsed` passes to `insertCode` for an ASCII input is
in upper case: it equals its own upper-case form. -/
theorem normalize_upper_ascii (u : Unicode) (raw : GoString) (hraw : ∀ x ∈ raw, x < 128) :
    ToUpper u (normalize u raw) = normalize u raw :=
  ToUpper_ToUpper_ascii u _ (TrimSpace_ascii u raw hraw)

/-- A code over the default alphabet equals its own upper-case form. -/
theorem ToUpper_default_alphabet (u : Unicode) (c : GoString)
    (hc : ∀ x ∈ c, x ∈ defaultAlphabet) : ToUpper u c = c := by
  have hall : ∀ x ∈ defaultAlphabet, x < 128 ∧ upperByte x = x := by decide
  rw [ToUpper_ascii u c (fun x hx => (hall x (hc x hx)).1)]
  conv_rhs => rw [← List.map_id c]
  exact List.map_congr_left (fun x hx => (hall x (hc x hx)).2)

/-- With the default alphabet, what `generateUnique` commits is in upper
case. -/
theorem generateUnique_default_upper (u : Unicode) (env : Env) (n : Int) (fuel : Nat)
    (w : World) (c : GoString) (w1 : World)
    (h : generateUnique env n defaultAlphabet fuel w = .ok c w1) : ToUpper u c = c :=
  ToUpper_default_alphabet u c (generateUnique_ok_inv env n defaultAlphabet fuel w c w1 h).2.2.2

/-! ## The function main -/

/-- Without `-add-used`, `main` is the batch loop. -/
theorem main_batch_only (u : Unicode) (env : Env) (flags : Flags) (fuel : Nat) (w : World)
    (h : flags.addUsed = []) :
    main u env flags fuel w =
      batchLoop env flags.length flags.alphabet fuel flags.batch.toNat w := by
  simp [main, h]

/-- With `-add-used`, `main` records the code and then runs the batch loop,
which issues nothing when `-batch` is not positive. -/
theorem main_add_used (u : Unicode) (env : Env) (flags : Flags) (fuel : Nat) (w : World)
    (h : flags.addUsed ≠ []) (hb : flags.batch ≤ 0) :
    main u env flags fuel w = .ok [] (recordUsed u env flags.addUsed w) := by
  simp [main, h, Int.toNat_eq_zero.mpr hb, batchLoop]

end VomarQR
